import Mathlib

/-!
Verification development for the Dataset Inspector engine
(dataset-inspector: chunked-index / streamed-archive / remote-archive /
remote-catalog adapters, preview builder, SPHERE-Shorten audio wrapper).

Pure functions from the frontend sources are embedded directly.
Operations implemented by the Rust backend (only their type declarations,
documentation and callers appear in the repository sources) are modelled
from the specification; each such definition carries a doc comment
starting with `Modelled from the spec:`.
Bytes are modelled as natural numbers (values below 256).
-/

namespace DatasetInspector

/-- Byte strings are lists of byte values. -/
abbrev Bytes := List Nat

/-! ## Common data model (declared in the frontend `tauri-api` source) -/

/-- One field of one item: declared from the source `FieldMeta` type. -/
structure FieldMeta where
  fieldIndex : Nat
  size : Nat
deriving Repr, DecidableEq

/-- One addressable item of a chunk: declared from the source `ItemMeta` type. -/
structure ItemMeta where
  itemIndex : Nat
  totalBytes : Nat
  fields : List FieldMeta
deriving Repr, DecidableEq

/-- One shard of a chunked-index source: declared from the source `ChunkSummary`
type.  The source field `exists` is a Lean keyword, hence the quoted name. -/
structure ChunkSummary where
  filename : String
  path : String
  chunkSize : Nat
  chunkBytes : Nat
  dim : Option Nat
  «exists» : Bool
deriving Repr, DecidableEq

/-- Summary of a loaded chunked-index manifest: declared from the source
`IndexSummary` type (the raw JSON config is kept as opaque text). -/
structure IndexSummary where
  indexPath : String
  rootDir : String
  dataFormat : List String
  compression : Option String
  chunkSize : Option Nat
  chunkBytes : Option Nat
  configRaw : Option String
  chunks : List ChunkSummary
deriving Repr, DecidableEq

/-- Result of previewing a field's bytes: declared from the source
`FieldPreview` type. -/
structure FieldPreview where
  previewText : Option String
  hexSnippet : String
  guessedExt : Option String
  isBinary : Bool
  size : Nat
deriving Repr, DecidableEq

/-- Result of materializing a field to a temp file: declared from the source
`OpenLeafResponse` type. -/
structure OpenLeafResponse where
  path : String
  size : Nat
  ext : String
  opened : Bool
  needsOpener : Bool
  message : String
deriving Repr, DecidableEq

/-! ## Zenodo summaries (fields as used by the inspector page source) -/

/-- One file of a Zenodo record, as consumed by the inspector page
(`key`, `contentUrl`, `size`). -/
structure ZenodoFileSummary where
  key : String
  contentUrl : String
  size : Nat
deriving Repr, DecidableEq

/-- One entry of a remote ZIP archive, as consumed by the inspector page
(`name`, `isDir`, `compressedSize`, `uncompressedSize`). -/
structure ZenodoZipEntrySummary where
  name : String
  isDir : Bool
  compressedSize : Nat
  uncompressedSize : Nat
deriving Repr, DecidableEq

/-- One entry of a remote TAR archive, as consumed by the inspector page
(`name`, `isDir`, `size`). -/
structure ZenodoTarEntrySummary where
  name : String
  isDir : Bool
  size : Nat
deriving Repr, DecidableEq

/-! ## Preview size merging (inspector page source)

The inspector page overrides the `size` of every preview it renders with the
size the source already knows: the Zenodo file size, the ZIP entry's
`uncompressedSize`, the TAR entry's `size`.  Embedded from the three
`useMemo` computations of the page source. -/

/-- Embedded from the page source: merge the backend preview of a whole Zenodo
file with the record's declared file size. -/
def zenodoPreview (data : Option FieldPreview) (file : Option ZenodoFileSummary) :
    Option FieldPreview :=
  match data, file with
  | some d, some f => some { d with size := f.size }
  | _, _ => none

/-- Embedded from the page source: merge the backend preview of a ZIP entry
with the entry's declared uncompressed size. -/
def zenodoZipEntryPreview (data : Option FieldPreview)
    (entry : Option ZenodoZipEntrySummary) (zenodoIsZip : Bool) :
    Option FieldPreview :=
  match data, entry, zenodoIsZip with
  | some d, some e, true => some { d with size := e.uncompressedSize }
  | _, _, _ => none

/-- Embedded from the page source: merge the backend preview of a TAR entry
with the entry's declared size. -/
def zenodoTarEntryPreview (data : Option FieldPreview)
    (entry : Option ZenodoTarEntrySummary) (zenodoIsTar : Bool) :
    Option FieldPreview :=
  match data, entry, zenodoIsTar with
  | some d, some e, true => some { d with size := e.size }
  | _, _, _ => none

/-! ## Zenodo input detection (inspector page source)

The page's `looksLikeZenodoInput` works on JavaScript strings; the embedding
uses `List Char` (JavaScript string operations manipulate character sequences
and the Lean `String` primitives do not reduce in the kernel).  URL parsing
is performed by the host runtime's `URL` constructor; it is passed in as a
function returning `none` where the constructor would throw, which makes the
embedding total (the source catches the throw and returns `false`). -/

/-- A parsed URL as the page consumes it: hostname and pathname. -/
structure JsUrl where
  hostname : List Char
  pathname : List Char
deriving Repr, DecidableEq

/-- JavaScript `String.prototype.trim` whitespace (the common cases). -/
def isJsSpace (c : Char) : Bool :=
  c = ' ' || c = '\t' || c = '\n' || c = '\r'

/-- JavaScript `value.trim()`: strip whitespace from both ends. -/
def trimChars (s : List Char) : List Char :=
  ((s.dropWhile isJsSpace).reverse.dropWhile isJsSpace).reverse

/-- JavaScript `pathname.split("/")` for the one-character separator. -/
def splitSlash : List Char → List (List Char)
  | [] => [[]]
  | c :: rest =>
      if c = '/' then [] :: splitSlash rest
      else
        match splitSlash rest with
        | [] => [[c]]
        | seg :: segs => (c :: seg) :: segs

/-- A path segment matching the record-id test of the page source
(the regular expression for one-or-more ASCII digits). -/
def isRecordIdSeg (s : List Char) : Bool :=
  !(s = []) && s.all Char.isDigit

/-- Embedded from the loop of `looksLikeZenodoInput`: scan the non-empty path
segments for a `records` or `record` segment whose successor is an
all-digit id (a missing successor is read as the empty string). -/
def segsHaveRecordId : List (List Char) → Bool
  | [] => false
  | s :: rest =>
      (((s = "records".toList) || (s = "record".toList))
          && isRecordIdSeg (rest.headD []))
        || segsHaveRecordId rest

/-- Embedded from the host/path acceptance of `looksLikeZenodoInput`: the
lowercased hostname must be `zenodo.org` or end with `.zenodo.org`, and the
non-empty path segments must contain a record id. -/
def zenodoUrlAccept (u : JsUrl) : Bool :=
  if ((u.hostname.map Char.toLower) = "zenodo.org".toList)
      || (".zenodo.org".toList).isSuffixOf (u.hostname.map Char.toLower) then
    segsHaveRecordId ((splitSlash u.pathname).filter (fun s => !(s = [])))
  else false

/-- Embedded from the page source `looksLikeZenodoInput`: trim, reject the
empty input, parse as URL (`none` models the constructor throwing), then
check hostname and path. -/
def looksLikeZenodoInput (parse : List Char → Option JsUrl) (value : List Char) : Bool :=
  if trimChars value = [] then false
  else
    match parse (trimChars value) with
    | none => false
    | some u => zenodoUrlAccept u

/-- The claim's wording for the path condition: some `records` or `record`
segment is immediately followed by a non-empty all-digit segment, in the
list of non-empty path segments. -/
def ZenodoRecordPath (segs : List (List Char)) : Prop :=
  ∃ pre a b post, segs = pre ++ a :: b :: post ∧
    (a = "records".toList ∨ a = "record".toList) ∧
    b ≠ [] ∧ b.all Char.isDigit = true

theorem segsHaveRecordId_iff (segs : List (List Char)) :
    segsHaveRecordId segs = true ↔ ZenodoRecordPath segs := by
  induction segs with
  | nil =>
      simp only [segsHaveRecordId, ZenodoRecordPath]
      constructor
      · intro h; cases h
      · rintro ⟨pre, a, b, post, h, -⟩
        exact absurd h (by simp)
  | cons s rest ih =>
      simp only [segsHaveRecordId, Bool.or_eq_true, Bool.and_eq_true]
      constructor
      · rintro (⟨hs, hid⟩ | htail)
        · cases rest with
          | nil =>
              exfalso
              simp [isRecordIdSeg] at hid
          | cons b rest' =>
              refine ⟨[], s, b, rest', rfl, ?_, ?_, ?_⟩
              · rcases hs with h | h
                · exact Or.inl (by simpa using h)
                · exact Or.inr (by simpa using h)
              · simp only [isRecordIdSeg, List.headD, Bool.and_eq_true] at hid
                simpa using hid.1
              · simp only [isRecordIdSeg, List.headD, Bool.and_eq_true] at hid
                exact hid.2
        · rcases ih.mp htail with ⟨pre, a, b, post, hEq, ha, hb, hd⟩
          exact ⟨s :: pre, a, b, post, by simp [hEq], ha, hb, hd⟩
      · rintro ⟨pre, a, b, post, hEq, ha, hb, hd⟩
        cases pre with
        | nil =>
            simp only [List.nil_append, List.cons.injEq] at hEq
            refine Or.inl ⟨?_, ?_⟩
            · rcases ha with h | h
              · exact Or.inl (by simp [hEq.1 ▸ h])
              · exact Or.inr (by simp [hEq.1 ▸ h])
            · have hrest : rest = b :: post := hEq.2
              simp only [hrest, isRecordIdSeg, List.headD, Bool.and_eq_true]
              exact ⟨by simpa using hb, hd⟩
        | cons p pre' =>
            simp only [List.cons_append, List.cons.injEq] at hEq
            exact Or.inr (ih.mpr ⟨pre', a, b, post, hEq.2, ha, hb, hd⟩)

theorem zenodoUrlAccept_iff (u : JsUrl) :
    zenodoUrlAccept u = true ↔
      ((u.hostname.map Char.toLower) = "zenodo.org".toList ∨
        (".zenodo.org".toList).isSuffixOf (u.hostname.map Char.toLower) = true) ∧
      ZenodoRecordPath ((splitSlash u.pathname).filter (fun s => !(s = []))) := by
  unfold zenodoUrlAccept
  by_cases hhost :
      (((u.hostname.map Char.toLower) = "zenodo.org".toList : Bool)
        || (".zenodo.org".toList).isSuffixOf (u.hostname.map Char.toLower)) = true
  · rw [if_pos hhost, segsHaveRecordId_iff]
    constructor
    · intro h
      refine ⟨?_, h⟩
      rcases Bool.or_eq_true _ _ |>.mp hhost with h' | h'
      · exact Or.inl (by simpa using h')
      · exact Or.inr h'
    · exact fun h => h.2
  · rw [if_neg hhost]
    constructor
    · intro h; cases h
    · rintro ⟨hh, -⟩
      refine absurd ?_ hhost
      rcases hh with h' | h'
      · exact Bool.or_eq_true _ _ |>.mpr (Or.inl (by simpa using h'))
      · exact Bool.or_eq_true _ _ |>.mpr (Or.inr h')

/-- A concrete URL-parse function used to instantiate hypotheses on a
representative Zenodo record URL. -/
def demoParse : List Char → Option JsUrl := fun s =>
  if s = "https://zenodo.org/records/123".toList then
    some { hostname := "zenodo.org".toList, pathname := "/records/123".toList }
  else none

/-- Claim C10: `looksLikeZenodoInput` returns true iff the trimmed input parses
as a URL whose lowercased hostname is exactly `zenodo.org` or ends with
`.zenodo.org` and whose path has a non-empty segment `records` or `record`
immediately followed by a non-empty all-digit segment; on any input that does
not parse as a URL it returns false (the embedding is a total function, so it
never throws). -/
theorem looksLikeZenodoInput_correct (parse : List Char → Option JsUrl)
    (value : List Char) (hEmpty : parse [] = none) :
    (looksLikeZenodoInput parse value = true ↔
      ∃ u, parse (trimChars value) = some u ∧
        ((u.hostname.map Char.toLower) = "zenodo.org".toList ∨
          (".zenodo.org".toList).isSuffixOf (u.hostname.map Char.toLower) = true) ∧
        ZenodoRecordPath ((splitSlash u.pathname).filter (fun s => !(s = [])))) ∧
    (parse (trimChars value) = none → looksLikeZenodoInput parse value = false) := by
  by_cases hv : trimChars value = []
  · refine ⟨?_, fun _ => by simp [looksLikeZenodoInput, hv]⟩
    constructor
    · intro h
      rw [looksLikeZenodoInput, if_pos hv] at h
      cases h
    · rintro ⟨u, hu, -, -⟩
      rw [hv, hEmpty] at hu
      cases hu
  · cases hp : parse (trimChars value) with
    | none =>
        have hfalse : looksLikeZenodoInput parse value = false := by
          rw [looksLikeZenodoInput, if_neg hv, hp]
        refine ⟨?_, fun _ => hfalse⟩
        rw [hfalse]
        constructor
        · intro h; cases h
        · rintro ⟨u, hu, -, -⟩
          cases hu
    | some u =>
        have hbody : looksLikeZenodoInput parse value = zenodoUrlAccept u := by
          rw [looksLikeZenodoInput, if_neg hv, hp]
        refine ⟨?_, fun hc => by cases hc⟩
        rw [hbody, zenodoUrlAccept_iff]
        constructor
        · rintro ⟨hh, hpath⟩
          exact ⟨u, rfl, hh, hpath⟩
        · rintro ⟨u', hu', hh, hpath⟩
          injection hu' with huu
          subst huu
          exact ⟨hh, hpath⟩

/-- Witness for claim C10 at a concrete record URL and parse function. -/
theorem looksLikeZenodoInput_correct_witness :
    looksLikeZenodoInput demoParse "https://zenodo.org/records/123".toList = true := by
  have h := looksLikeZenodoInput_correct demoParse
    "https://zenodo.org/records/123".toList (by decide)
  refine h.1.mpr
    ⟨{ hostname := "zenodo.org".toList, pathname := "/records/123".toList },
      by decide, Or.inl (by decide), ?_⟩
  exact ⟨[], "records".toList, "123".toList, [], by decide, Or.inl rfl, by decide, by decide⟩

/-- Claim C3: every field or archive-entry preview rendered by the inspector
page reports the byte size already known by the source (the Zenodo file size,
the ZIP entry's uncompressed size, the TAR entry's size), whatever the
backend preview (built from however many fetched bytes) contained. -/
theorem preview_size_is_source_size :
    ∀ (d : FieldPreview) (f : ZenodoFileSummary) (e : ZenodoZipEntrySummary)
      (t : ZenodoTarEntrySummary),
      (zenodoPreview (some d) (some f)).map FieldPreview.size = some f.size ∧
      (zenodoZipEntryPreview (some d) (some e) true).map FieldPreview.size
        = some e.uncompressedSize ∧
      (zenodoTarEntryPreview (some d) (some t) true).map FieldPreview.size
        = some t.size := by
  intro d f e t
  exact ⟨rfl, rfl, rfl⟩

/-! ## Chunked-index adapter (LitData-style)

Modelled from the spec: the Rust backend implementing `load_index` and
`list_chunk_items` is not part of the reviewed sources (only the frontend
type declarations and callers are).  Per the spec, a chunk packs many items
contiguously behind a header region encoding, per item, the cumulative byte
offset of each of its fields; `ItemRef`/`FieldRef` are derived purely from
that offset table, field sizes being differences of adjacent offsets. -/

/-- A chunk's logical content: a list of items, each item an ordered list of
field byte strings. -/
abbrev ChunkItems := List (List Bytes)

/-- The byte sizes of one item's fields. -/
def fieldSizes (item : List Bytes) : List Nat := item.map List.length

/-- Modelled from the spec: the cumulative offsets of one item's fields,
starting at `base` and ending at the end offset of the last field. -/
def cumOffsets (base : Nat) : List Nat → List Nat
  | [] => [base]
  | n :: ns => base :: cumOffsets (base + n) ns

/-- Differences of adjacent offsets: the derived field sizes. -/
def offsetDiffs : List Nat → List Nat
  | [] => []
  | [_] => []
  | a :: b :: rest => (b - a) :: offsetDiffs (b :: rest)

/-- Modelled from the spec: the per-item offset table of a chunk whose items
are packed contiguously starting at `base`. -/
def chunkOffsetTable (base : Nat) : ChunkItems → List (List Nat)
  | [] => []
  | it :: rest =>
      cumOffsets base (fieldSizes it)
        :: chunkOffsetTable (base + (fieldSizes it).sum) rest

/-- Modelled from the spec: derive one `ItemMeta` purely from its offset row
(total bytes is the end offset minus the start offset; field sizes are
adjacent differences). -/
def itemOfOffsets (idx : Nat) (offs : List Nat) : ItemMeta :=
  { itemIndex := idx,
    totalBytes := offs.getLastD 0 - offs.headD 0,
    fields := (offsetDiffs offs).enum.map fun p =>
      { fieldIndex := p.1, size := p.2 } }

/-- Modelled from the spec: `list_chunk_items` derives the dense item list
from the chunk's offset table alone. -/
def list_chunk_items (table : List (List Nat)) : List ItemMeta :=
  table.enum.map fun p => itemOfOffsets p.1 p.2

/-- The payload bytes of a chunk: all fields of all items, concatenated. -/
def chunkPayload (items : ChunkItems) : Bytes :=
  (items.map List.flatten).flatten

/-- Modelled from the spec: the `ChunkSummary` a manifest load produces for a
valid chunk whose file is present — the declared byte size is the payload
size and the declared item count is the number of items. -/
def chunkSummaryOf (filename path : String) (items : ChunkItems) : ChunkSummary :=
  { filename := filename, path := path,
    chunkSize := items.length,
    chunkBytes := (chunkPayload items).length,
    dim := none, «exists» := true }

/-- The sum of the declared sizes of an item's fields. -/
def sumFieldSizes (m : ItemMeta) : Nat :=
  (m.fields.map FieldMeta.size).sum

theorem offsetDiffs_cumOffsets (ns : List Nat) :
    ∀ b, offsetDiffs (cumOffsets b ns) = ns := by
  induction ns with
  | nil => intro b; rfl
  | cons n ns ih =>
      intro b
      cases ns with
      | nil =>
          simp [cumOffsets, offsetDiffs]
      | cons m ms =>
          have h1 : cumOffsets b (n :: m :: ms)
              = b :: (b + n) :: cumOffsets (b + n + m) ms := rfl
          have h2 : offsetDiffs (b :: (b + n) :: cumOffsets (b + n + m) ms)
              = (b + n - b) :: offsetDiffs ((b + n) :: cumOffsets (b + n + m) ms) := rfl
          have h3 : (b + n) :: cumOffsets (b + n + m) ms
              = cumOffsets (b + n) (m :: ms) := rfl
          rw [h1, h2, Nat.add_sub_cancel_left, h3, ih (b + n)]

theorem cumOffsets_headD (b : Nat) (ns : List Nat) :
    (cumOffsets b ns).headD 0 = b := by
  cases ns <;> rfl

theorem cumOffsets_getLastD (ns : List Nat) :
    ∀ b, (cumOffsets b ns).getLastD 0 = b + ns.sum := by
  induction ns with
  | nil => intro b; simp [cumOffsets]
  | cons n ns ih =>
      intro b
      have : cumOffsets b (n :: ns) = b :: cumOffsets (b + n) ns := rfl
      rw [this]
      have hne : cumOffsets (b + n) ns ≠ [] := by
        cases ns <;> simp [cumOffsets]
      rw [List.getLastD_cons]
      cases hcl : cumOffsets (b + n) ns with
      | nil => exact absurd hcl hne
      | cons x xs =>
          have := ih (b + n)
          rw [hcl] at this
          simpa [List.sum_cons, Nat.add_assoc] using this

theorem itemOfOffsets_sumFieldSizes (idx : Nat) (offs : List Nat) :
    sumFieldSizes (itemOfOffsets idx offs) = (offsetDiffs offs).sum := by
  simp only [sumFieldSizes, itemOfOffsets, List.map_map]
  have hcomp : (FieldMeta.size ∘ fun p : Nat × Nat =>
      { fieldIndex := p.1, size := p.2 }) = Prod.snd := rfl
  rw [hcomp, List.enum_map_snd]

theorem itemOfOffsets_totalBytes (idx b : Nat) (ns : List Nat) :
    (itemOfOffsets idx (cumOffsets b ns)).totalBytes = ns.sum := by
  simp only [itemOfOffsets, cumOffsets_headD, cumOffsets_getLastD]
  exact Nat.add_sub_cancel_left b ns.sum

theorem offsetTable_rows (items : ChunkItems) :
    ∀ base, ∀ offs ∈ chunkOffsetTable base items,
      ∃ b ns, offs = cumOffsets b ns := by
  induction items with
  | nil => intro base offs h; cases h
  | cons it rest ih =>
      intro base offs h
      rcases List.mem_cons.mp h with h | h
      · exact ⟨base, fieldSizes it, h⟩
      · exact ih _ offs h

theorem snd_mem_of_mem_enum {α : Type} {p : Nat × α} {l : List α}
    (h : p ∈ l.enum) : p.2 ∈ l := by
  have hs := List.enum_map_snd l
  exact hs ▸ List.mem_map_of_mem Prod.snd h

theorem list_chunk_items_sizes (table : List (List Nat)) :
    (list_chunk_items table).map sumFieldSizes
      = table.map fun offs => (offsetDiffs offs).sum := by
  rw [list_chunk_items, List.map_map]
  have hcomp : (sumFieldSizes ∘ fun p : Nat × List Nat => itemOfOffsets p.1 p.2)
      = (fun offs => (offsetDiffs offs).sum) ∘ Prod.snd := by
    funext p
    exact itemOfOffsets_sumFieldSizes p.1 p.2
  rw [hcomp, ← List.map_map, List.enum_map_snd]

theorem chunkOffsetTable_diff_sums (items : ChunkItems) :
    ∀ base,
      ((chunkOffsetTable base items).map fun offs => (offsetDiffs offs).sum).sum
        = (items.map fun it => (fieldSizes it).sum).sum := by
  induction items with
  | nil => intro base; rfl
  | cons it rest ih =>
      intro base
      simp only [chunkOffsetTable, List.map_cons, List.sum_cons,
        offsetDiffs_cumOffsets, ih]

theorem chunkPayload_length (items : ChunkItems) :
    (chunkPayload items).length = (items.map fun it => (fieldSizes it).sum).sum := by
  induction items with
  | nil => rfl
  | cons it rest ih =>
      have hcons : chunkPayload (it :: rest) = it.flatten ++ chunkPayload rest := by
        simp [chunkPayload]
      rw [hcons, List.length_append, ih, List.map_cons, List.sum_cons]
      congr 1
      simp [fieldSizes, List.length_flatten]

/-- Claim C1: for a loaded chunked-index shard, the declared byte size equals
the sum of all field sizes across all derived `ItemMeta`s, and every
`ItemMeta`'s `totalBytes` equals the sum of its own fields' sizes. -/
theorem chunk_declared_size_invariant (filename path : String) (items : ChunkItems) :
    (chunkSummaryOf filename path items).chunkBytes
      = ((list_chunk_items (chunkOffsetTable 0 items)).map sumFieldSizes).sum
    ∧ ∀ m ∈ list_chunk_items (chunkOffsetTable 0 items),
        m.totalBytes = sumFieldSizes m := by
  constructor
  · show (chunkPayload items).length = _
    rw [list_chunk_items_sizes, chunkOffsetTable_diff_sums, chunkPayload_length]
  · intro m hm
    rw [list_chunk_items] at hm
    rcases List.mem_map.mp hm with ⟨p, hmem, hitem⟩
    rcases offsetTable_rows items 0 p.2 (snd_mem_of_mem_enum hmem) with ⟨b, ns, hoffs⟩
    rw [← hitem, hoffs, itemOfOffsets_totalBytes, itemOfOffsets_sumFieldSizes,
      offsetDiffs_cumOffsets]

/-! ## Preview builder and field round-trip

Modelled from the spec: the Rust backend implementing `peek_field` and
`open_leaf` is not part of the reviewed sources (only the frontend type
declarations and callers are).  Per the spec, the preview builder reads only
a bounded window of the field's bytes, classifies binary/text, computes a
hex snippet, guesses an extension from magic-byte signatures first and
declared metadata second, and always reports the true size the source
already knows; materializing writes the full field bytes to a temp file. -/

/-- Number of bytes fetched to build a preview. -/
def PREVIEW_WINDOW : Nat := 4096

/-- Maximum decoded-text length of a preview. -/
def TEXT_CAP : Nat := 2048

/-- Magic-byte extension sniffing (first bytes only). -/
def guessExtFromMagic (bs : Bytes) : Option String :=
  if bs.take 8 = [0x89, 0x50, 0x4E, 0x47, 0x0D, 0x0A, 0x1A, 0x0A] then some "png"
  else if bs.take 3 = [0xFF, 0xD8, 0xFF] then some "jpg"
  else if bs.take 4 = [0x50, 0x4B, 0x03, 0x04] then some "zip"
  else if bs.take 4 = [0x52, 0x49, 0x46, 0x46] then some "wav"
  else if bs.take 4 = [0x66, 0x4C, 0x61, 0x43] then some "flac"
  else none

/-- Modelled from the spec: extension choice — magic bytes first, declared
field metadata second, a generic binary extension as the fallback. -/
def extChoice (bs : Bytes) (declaredExt : Option String) : String :=
  (guessExtFromMagic bs).getD (declaredExt.getD "bin")

/-- A byte that counts towards the binary classification (NUL or a control
byte other than tab, line feed, carriage return). -/
def isControlByte (b : Nat) : Bool :=
  b = 0 || (b < 32 && !(b = 9) && !(b = 10) && !(b = 13))

/-- Modelled from the spec: binary classification by control/NUL bytes beyond
a small threshold ratio. -/
def isBinaryBytes (bs : Bytes) : Bool :=
  32 * (bs.countP isControlByte) > bs.length

/-- One hexadecimal digit. -/
def hexDigit (n : Nat) : Char :=
  if n < 10 then Char.ofNat (48 + n) else Char.ofNat (87 + n)

/-- Hex dump of a byte string. -/
def hexOf (bs : Bytes) : String :=
  String.mk (bs.flatMap fun b => [hexDigit (b / 16), hexDigit (b % 16)])

/-- Decode bytes as text (capped). -/
def textOf (bs : Bytes) : String :=
  String.mk ((bs.take TEXT_CAP).map Char.ofNat)

/-- Modelled from the spec: build a `FieldPreview` from the fetched window of
a field's bytes and the true size the source already knows. -/
def buildFieldPreview (fetched : Bytes) (knownSize : Nat)
    (declaredExt : Option String) : FieldPreview :=
  let window := fetched.take PREVIEW_WINDOW
  { previewText := if isBinaryBytes window then none else some (textOf window),
    hexSnippet := hexOf (window.take 16),
    guessedExt := some (extChoice window declaredExt),
    isBinary := isBinaryBytes window,
    size := knownSize }

/-- The bytes of one field of one item, if the indices are in range. -/
def fieldBytesAt (items : ChunkItems) (itemIndex fieldIndex : Nat) : Option Bytes :=
  (items.get? itemIndex).bind fun it => it.get? fieldIndex

/-- Modelled from the spec: `peek_field` fetches one window of the field and
builds a preview reporting the field's true size. -/
def peek_field (items : ChunkItems) (itemIndex fieldIndex : Nat)
    (declaredExt : Option String) : Option FieldPreview :=
  (fieldBytesAt items itemIndex fieldIndex).map fun bs =>
    buildFieldPreview (bs.take PREVIEW_WINDOW) bs.length declaredExt

/-- Modelled from the spec: `materialize_field` (`open_leaf`) writes the full
field bytes to a temp file and reports its size and guessed extension. -/
def materialize_field (items : ChunkItems) (itemIndex fieldIndex : Nat)
    (declaredExt : Option String) (tmpPath : String) : Option OpenLeafResponse :=
  (fieldBytesAt items itemIndex fieldIndex).map fun bs =>
    { path := tmpPath, size := bs.length,
      ext := extChoice bs declaredExt,
      opened := true, needsOpener := false, message := "" }

theorem guessExtFromMagic_take (bs : Bytes) (n : Nat) (hn : 8 ≤ n) :
    guessExtFromMagic (bs.take n) = guessExtFromMagic bs := by
  have htake : ∀ k, k ≤ 8 → (bs.take n).take k = bs.take k := by
    intro k hk
    rw [List.take_take, Nat.min_eq_left (le_trans hk hn)]
  rw [guessExtFromMagic, guessExtFromMagic,
    htake 8 (by omega), htake 3 (by omega), htake 4 (by omega)]

theorem extChoice_take (bs : Bytes) (declaredExt : Option String) (n : Nat)
    (hn : 8 ≤ n) :
    extChoice (bs.take n) declaredExt = extChoice bs declaredExt := by
  rw [extChoice, extChoice, guessExtFromMagic_take bs n hn]

/-- Claim C2: for every item and field, `peek_field` followed by
`materialize_field` on the same field reports the same byte size and the
same guessed extension (the preview's optional extension is the
materialized extension). -/
theorem peek_materialize_agree (items : ChunkItems) (itemIndex fieldIndex : Nat)
    (declaredExt : Option String) (tmpPath : String)
    (fp : FieldPreview) (resp : OpenLeafResponse)
    (hpeek : peek_field items itemIndex fieldIndex declaredExt = some fp)
    (hopen : materialize_field items itemIndex fieldIndex declaredExt tmpPath
      = some resp) :
    fp.size = resp.size ∧ fp.guessedExt = some resp.ext := by
  cases hbs : fieldBytesAt items itemIndex fieldIndex with
  | none =>
      rw [peek_field, hbs] at hpeek
      cases hpeek
  | some bs =>
      rw [peek_field, hbs, Option.map_some'] at hpeek
      rw [materialize_field, hbs, Option.map_some'] at hopen
      cases hpeek
      cases hopen
      refine ⟨rfl, ?_⟩
      show some (extChoice ((bs.take PREVIEW_WINDOW).take PREVIEW_WINDOW) declaredExt)
        = some (extChoice bs declaredExt)
      rw [List.take_take, Nat.min_self, extChoice_take bs declaredExt PREVIEW_WINDOW
        (by rw [PREVIEW_WINDOW]; omega)]

/-- Witness for claim C2 on a one-item, one-field chunk holding a PNG magic. -/
theorem peek_materialize_agree_witness :
    ∃ fp resp,
      peek_field [[[0x89, 0x50, 0x4E, 0x47, 0x0D, 0x0A, 0x1A, 0x0A, 0x00]]] 0 0 none
        = some fp ∧
      materialize_field [[[0x89, 0x50, 0x4E, 0x47, 0x0D, 0x0A, 0x1A, 0x0A, 0x00]]] 0 0
        none "tmp0" = some resp ∧
      fp.size = resp.size ∧ fp.guessedExt = some resp.ext := by
  refine ⟨_, _, rfl, rfl, ?_⟩
  exact peek_materialize_agree
    [[[0x89, 0x50, 0x4E, 0x47, 0x0D, 0x0A, 0x1A, 0x0A, 0x00]]] 0 0 none "tmp0" _ _ rfl rfl

/-! ## Streamed-archive (WebDataset) member grouping

Modelled from the spec and `docs/webdataset.md`: the Rust scanning backend is
not part of the reviewed sources.  Sample key = all directory components plus
the base name up to (but not including) its first dot; field name = the rest
of the base name after that first dot, dots included.  Members are visited in
archive order; a sample is closed the moment a member with a different key is
seen.  Paths are character lists. -/

/-- The base name of a member path: everything after the last slash. -/
def baseOf (p : List Char) : List Char :=
  ((p.reverse.takeWhile fun c => !(c = '/'))).reverse

/-- The directory part of a member path: everything up to and including the
last slash. -/
def dirOf (p : List Char) : List Char :=
  ((p.reverse.dropWhile fun c => !(c = '/'))).reverse

/-- The base name up to (not including) its first dot. -/
def keyPartOf (base : List Char) : List Char :=
  base.takeWhile fun c => !(c = '.')

/-- The base name after its first dot (dots included). -/
def fieldPartOf (base : List Char) : List Char :=
  (base.dropWhile fun c => !(c = '.')).drop 1

/-- Modelled from the spec: the sample key of a member path. -/
def sampleKeyOf (p : List Char) : List Char :=
  dirOf p ++ keyPartOf (baseOf p)

/-- Modelled from the spec: the field name of a member path. -/
def fieldNameOf (p : List Char) : List Char :=
  fieldPartOf (baseOf p)

/-- One member of a tar shard. -/
structure WdsMember where
  path : List Char
  size : Nat
deriving Repr, DecidableEq

/-- One grouped sample: its key and its field names in member order. -/
structure WdsSample where
  key : List Char
  fieldNames : List (List Char)
deriving Repr, DecidableEq

/-- Modelled from the spec: group (key, field) pairs in archive order into
samples of equal adjacent keys; a differing key closes the current sample. -/
def groupPairs : List (List Char × List Char) → List WdsSample
  | [] => []
  | (k, f) :: rest =>
      match groupPairs rest with
      | [] => [{ key := k, fieldNames := [f] }]
      | s :: ss =>
          if s.key = k then { key := k, fieldNames := f :: s.fieldNames } :: ss
          else { key := k, fieldNames := [f] } :: s :: ss

/-- Modelled from the spec: scan a shard's members in archive order and group
them into samples. -/
def wds_list_samples (members : List WdsMember) : List WdsSample :=
  groupPairs (members.map fun m => (sampleKeyOf m.path, fieldNameOf m.path))

/-- Flatten grouped samples back to (key, field) pairs in order. -/
def samplePairs (ss : List WdsSample) : List (List Char × List Char) :=
  ss.flatMap fun s => s.fieldNames.map fun f => (s.key, f)

theorem dirOf_append_baseOf (p : List Char) : dirOf p ++ baseOf p = p := by
  rw [dirOf, baseOf, ← List.reverse_append, List.takeWhile_append_dropWhile,
    List.reverse_reverse]

theorem baseOf_no_slash (p : List Char) : '/' ∉ baseOf p := by
  intro hmem
  rw [baseOf, List.mem_reverse] at hmem
  have := List.mem_takeWhile_imp hmem
  simp at this

theorem keyPartOf_no_dot (base : List Char) : '.' ∉ keyPartOf base := by
  intro hmem
  have := List.mem_takeWhile_imp hmem
  simp at this

theorem keyPart_dot_split (base : List Char) (h : '.' ∈ base) :
    keyPartOf base ++ '.' :: fieldPartOf base = base := by
  induction base with
  | nil => cases h
  | cons c rest ih =>
      by_cases hc : c = '.'
      · subst hc
        simp [keyPartOf, fieldPartOf]
      · have hrest : '.' ∈ rest := by
          rcases List.mem_cons.mp h with h' | h'
          · exact absurd h'.symm hc
          · exact h'
        have h1 := ih hrest
        rw [keyPartOf, fieldPartOf] at h1
        have hpc : (fun x => !(x = '.')) c = true := by simp [hc]
        rw [keyPartOf, fieldPartOf, List.takeWhile_cons, List.dropWhile_cons,
          if_pos hpc, if_pos hpc, List.cons_append, h1]

theorem samplePairs_groupPairs (ps : List (List Char × List Char)) :
    samplePairs (groupPairs ps) = ps := by
  induction ps with
  | nil => rfl
  | cons pr rest ih =>
      obtain ⟨k, f⟩ := pr
      rw [groupPairs]
      cases hg : groupPairs rest with
      | nil =>
          rw [hg] at ih
          have hrest : rest = [] := by simpa [samplePairs] using ih.symm
          subst hrest
          rfl
      | cons s ss =>
          rw [hg] at ih
          dsimp only
          by_cases heq : s.key = k
          · subst heq
            rw [if_pos rfl]
            simp only [samplePairs, List.flatMap_cons, List.map_cons,
              List.cons_append] at ih ⊢
            rw [ih]
          · rw [if_neg heq]
            simp only [samplePairs, List.flatMap_cons, List.map_cons,
              List.map_nil, List.cons_append, List.nil_append] at ih ⊢
            rw [ih]

theorem groupPairs_chain (ps : List (List Char × List Char)) :
    List.Chain' (fun a b : WdsSample => a.key ≠ b.key) (groupPairs ps) := by
  induction ps with
  | nil => exact List.chain'_nil
  | cons pr rest ih =>
      obtain ⟨k, f⟩ := pr
      rw [groupPairs]
      cases hg : groupPairs rest with
      | nil => simp
      | cons s ss =>
          rw [hg] at ih
          rcases List.chain'_cons'.mp ih with ⟨hs, hss⟩
          dsimp only
          by_cases heq : s.key = k
          · subst heq
            rw [if_pos rfl]
            refine List.chain'_cons'.mpr ⟨?_, hss⟩
            intro y hy
            exact hs y hy
          · rw [if_neg heq]
            refine List.chain'_cons'.mpr ⟨?_, ih⟩
            intro y hy
            simp only [List.head?_cons, Option.mem_def, Option.some.injEq] at hy
            subst hy
            exact fun habs => heq habs.symm

theorem groupPairs_nonempty (ps : List (List Char × List Char)) :
    ∀ s ∈ groupPairs ps, s.fieldNames ≠ [] := by
  induction ps with
  | nil => intro s h; cases h
  | cons pr rest ih =>
      obtain ⟨k, f⟩ := pr
      intro s hs
      rw [groupPairs] at hs
      cases hg : groupPairs rest with
      | nil =>
          rw [hg] at hs
          rcases List.mem_cons.mp hs with h | h
          · subst h; simp
          · cases h
      | cons s' ss =>
          rw [hg] at hs ih
          dsimp only at hs
          by_cases heq : s'.key = k
          · rw [if_pos heq] at hs
            rcases List.mem_cons.mp hs with h | h
            · subst h; simp
            · exact ih s (List.mem_cons_of_mem s' h)
          · rw [if_neg heq] at hs
            rcases List.mem_cons.mp hs with h | h
            · subst h; simp
            · exact ih s h

/-- Claim C4: the sample key of a streamed-archive member is every path
segment before the final component plus the final component up to (not
including) its first dot, the field name is everything after that first dot
(further dots included), and members are grouped in archive order, a sample
closing the moment a member with a different key is seen (adjacent groups
have distinct keys, groups are non-empty, and flattening the groups restores
the members' keyed fields in order). -/
theorem wds_grouping_correct (p : List Char) (members : List WdsMember) :
    (dirOf p ++ baseOf p = p ∧ '/' ∉ baseOf p ∧ '.' ∉ keyPartOf (baseOf p)) ∧
    ('.' ∈ baseOf p → sampleKeyOf p ++ '.' :: fieldNameOf p = p) ∧
    samplePairs (wds_list_samples members)
      = members.map (fun m => (sampleKeyOf m.path, fieldNameOf m.path)) ∧
    List.Chain' (fun a b : WdsSample => a.key ≠ b.key) (wds_list_samples members) ∧
    (∀ s ∈ wds_list_samples members, s.fieldNames ≠ []) := by
  refine ⟨⟨dirOf_append_baseOf p, baseOf_no_slash p, keyPartOf_no_dot (baseOf p)⟩,
    ?_, ?_, ?_, ?_⟩
  · intro hdot
    rw [sampleKeyOf, fieldNameOf, List.append_assoc, keyPart_dot_split (baseOf p) hdot]
    exact dirOf_append_baseOf p
  · exact samplePairs_groupPairs _
  · exact groupPairs_chain _
  · exact groupPairs_nonempty _

/-- Witness for claim C4 at the documentation's example member
`images17/image194.left.jpg`: key `images17/image194`, field `left.jpg`. -/
theorem wds_grouping_correct_witness :
    '.' ∈ baseOf "images17/image194.left.jpg".toList ∧
    sampleKeyOf "images17/image194.left.jpg".toList ++ '.' ::
        fieldNameOf "images17/image194.left.jpg".toList
      = "images17/image194.left.jpg".toList ∧
    sampleKeyOf "images17/image194.left.jpg".toList = "images17/image194".toList ∧
    fieldNameOf "images17/image194.left.jpg".toList = "left.jpg".toList := by
  have h := wds_grouping_correct "images17/image194.left.jpg".toList []
  exact ⟨by decide, h.2.1 (by decide), by decide, by decide⟩

/-! ## Resumable scanning via ScanCursor

Modelled from the spec: a `ScanCursor` records the raw scan position and any
partially-open sample, so that resuming continues the scan instead of
restarting.  The scan state is the list of fully-closed samples plus the
optional open sample (key and fields accumulated so far). -/

/-- A partially-open sample: its key and the field names seen so far. -/
abbrev OpenSample := List Char × List (List Char)

/-- Modelled from the spec: a resumable scan position — the raw position (the
index of the next member to read) and the partially-open sample. -/
structure ScanCursor where
  pos : Nat
  pending : Option OpenSample
deriving Repr, DecidableEq

/-- One scan step: a member with key `k` and field `f` extends the open
sample when the key matches, otherwise closes it and opens a new one. -/
def stepSample (st : List WdsSample × Option OpenSample)
    (pr : List Char × List Char) : List WdsSample × Option OpenSample :=
  match st.2 with
  | none => (st.1, some (pr.1, [pr.2]))
  | some (ck, fs) =>
      if pr.1 = ck then (st.1, some (ck, fs ++ [pr.2]))
      else (st.1 ++ [{ key := ck, fieldNames := fs }], some (pr.1, [pr.2]))

/-- Run the scan over a list of (key, field) pairs from a given state. -/
def runScan (st : List WdsSample × Option OpenSample)
    (ps : List (List Char × List Char)) : List WdsSample × Option OpenSample :=
  ps.foldl stepSample st

/-- Close the open sample at the end of a scan. -/
def finishScan (st : List WdsSample × Option OpenSample) : List WdsSample :=
  match st.2 with
  | none => st.1
  | some (ck, fs) => st.1 ++ [{ key := ck, fieldNames := fs }]

/-- The pairs scanned from a member list. -/
def memberPairs (members : List WdsMember) : List (List Char × List Char) :=
  members.map fun m => (sampleKeyOf m.path, fieldNameOf m.path)

/-- A full scan of a shard from the start. -/
def fullScan (members : List WdsMember) : List WdsSample :=
  finishScan (runScan ([], none) (memberPairs members))

/-- Modelled from the spec: the cursor captured after scanning the first `k`
members — raw position `k` plus the partially-open sample at that point. -/
def cursorAt (members : List WdsMember) (k : Nat) : ScanCursor :=
  { pos := k, pending := (runScan ([], none) (memberPairs (members.take k))).2 }

/-- Modelled from the spec: resume the scan from a cursor — continue from the
recorded raw position with the recorded partially-open sample, emitting only
samples not closed before the cursor. -/
def resumeScan (cursor : ScanCursor) (members : List WdsMember) : List WdsSample :=
  finishScan (runScan ([], cursor.pending) (memberPairs (members.drop cursor.pos)))

/-- The samples closed strictly before position `k` of the full scan. -/
def closedBefore (members : List WdsMember) (k : Nat) : List WdsSample :=
  (runScan ([], none) (memberPairs (members.take k))).1

theorem stepSample_done_factor (st : List WdsSample × Option OpenSample)
    (pr : List Char × List Char) :
    stepSample st pr
      = (st.1 ++ (stepSample ([], st.2) pr).1, (stepSample ([], st.2) pr).2) := by
  obtain ⟨d, p⟩ := st
  cases p with
  | none => simp [stepSample]
  | some op =>
      obtain ⟨ck, fs⟩ := op
      by_cases hk : pr.1 = ck
      · simp [stepSample, hk]
      · simp [stepSample, hk]

theorem runScan_done_factor (ps : List (List Char × List Char)) :
    ∀ (d : List WdsSample) (p : Option OpenSample),
      runScan (d, p) ps
        = (d ++ (runScan ([], p) ps).1, (runScan ([], p) ps).2) := by
  induction ps with
  | nil => intro d p; simp [runScan]
  | cons pr rest ih =>
      intro d p
      have h1 : runScan (d, p) (pr :: rest) = runScan (stepSample (d, p) pr) rest := rfl
      have h2 : runScan ([], p) (pr :: rest) = runScan (stepSample ([], p) pr) rest := rfl
      rw [h1, h2, stepSample_done_factor (d, p) pr]
      rw [ih (d ++ (stepSample ([], p) pr).1) (stepSample ([], p) pr).2]
      have hbase : runScan (stepSample ([], p) pr) rest
          = ((stepSample ([], p) pr).1
                ++ (runScan ([], (stepSample ([], p) pr).2) rest).1,
              (runScan ([], (stepSample ([], p) pr).2) rest).2) :=
        ih (stepSample ([], p) pr).1 (stepSample ([], p) pr).2
      rw [hbase, List.append_assoc]

theorem finishScan_done_factor (d : List WdsSample) (p : Option OpenSample) :
    finishScan (d, p) = d ++ finishScan ([], p) := by
  cases p with
  | none => simp [finishScan]
  | some op =>
      obtain ⟨ck, fs⟩ := op
      simp [finishScan]

/-- Claim C5: for every shard and every offset `k`, resuming the forward scan
from the `ScanCursor` captured at offset `k` yields exactly the samples of
the full scan that were not already closed before `k` — the full scan equals
the closed-before prefix followed by the resumed scan. -/
theorem scan_cursor_resume (members : List WdsMember) (k : Nat) :
    fullScan members = closedBefore members k ++ resumeScan (cursorAt members k) members := by
  have hsplit : memberPairs members
      = memberPairs (members.take k) ++ memberPairs (members.drop k) := by
    rw [memberPairs, memberPairs, memberPairs, ← List.map_append,
      List.take_append_drop]
  rw [fullScan, hsplit, runScan, List.foldl_append, ← runScan, ← runScan]
  have hA : runScan ([], none) (memberPairs (members.take k))
      = ((runScan ([], none) (memberPairs (members.take k))).1,
         (runScan ([], none) (memberPairs (members.take k))).2) := rfl
  rw [hA, runScan_done_factor, finishScan_done_factor, closedBefore,
    List.append_assoc]
  congr 1
  rw [resumeScan]
  have hY : runScan ([], (cursorAt members k).pending)
        (memberPairs (members.drop (cursorAt members k).pos))
      = ((runScan ([], (runScan ([], none) (memberPairs (members.take k))).2)
            (memberPairs (members.drop k))).1,
          (runScan ([], (runScan ([], none) (memberPairs (members.take k))).2)
            (memberPairs (members.drop k))).2) := rfl
  rw [hY]
  conv_rhs => rw [finishScan_done_factor]

/-! ## Byte-range fetcher

Modelled from the spec: the remote byte-range fetcher issues a request with a
byte-range header and verifies the partial-content status of the response,
failing with the distinct `RangeUnsupported` error when the server ignores
the range; it never issues a whole-object download as a fallback. -/

/-- Errors of the byte-range fetcher, per the spec's taxonomy. -/
inductive FetchError
  | notFound
  | rangeUnsupported
  | network
  | timeout
deriving Repr, DecidableEq

/-- An HTTP request issued by the fetcher: a ranged read or a whole-object
download. -/
inductive HttpRequest
  | ranged (requestOffset requestLength : Nat)
  | wholeObject
deriving Repr, DecidableEq

/-- A remote resource: its bytes and whether its server honors range
requests. -/
structure RemoteResource where
  body : Bytes
  honorsRange : Bool
deriving Repr, DecidableEq

/-- The server's answer to a request: a status code and a body.  A server
that honors ranges answers a ranged request with 206 and the requested
slice; a server that ignores ranges answers 200 with the whole body. -/
def serveRequest (r : RemoteResource) : HttpRequest → Nat × Bytes
  | .wholeObject => (200, r.body)
  | .ranged off len =>
      if r.honorsRange then (206, (r.body.drop off).take len)
      else (200, r.body)

/-- Modelled from the spec: `read(source, offset, length)` issues exactly one
ranged request and checks the partial-content status, failing with
`RangeUnsupported` otherwise.  The result carries the log of issued
requests. -/
def remoteRead (r : RemoteResource) (off len : Nat) :
    List HttpRequest × Except FetchError Bytes :=
  let req := HttpRequest.ranged off len
  let resp := serveRequest r req
  if resp.1 = 206 then ([req], Except.ok resp.2)
  else ([req], Except.error FetchError.rangeUnsupported)

/-- Claim C6: against a resource whose server does not honor range requests,
the first ranged use fails with the distinct `RangeUnsupported` error, every
request issued is a ranged request (never a whole-object download), and for
an honoring server the read returns the requested slice. -/
theorem range_unsupported_fails_fast (r : RemoteResource) (off len : Nat)
    (h : r.honorsRange = false) :
    (remoteRead r off len).2 = Except.error FetchError.rangeUnsupported ∧
    (remoteRead r off len).1 = [HttpRequest.ranged off len] ∧
    HttpRequest.wholeObject ∉ (remoteRead r off len).1 := by
  rw [remoteRead]
  simp only [serveRequest, h, if_false]
  refine ⟨?_, ?_, ?_⟩
  · simp
  · simp
  · simp

/-- Witness for claim C6 at a concrete range-ignoring resource. -/
theorem range_unsupported_fails_fast_witness :
    (remoteRead { body := [1, 2, 3], honorsRange := false } 0 2).2
      = Except.error FetchError.rangeUnsupported ∧
    HttpRequest.wholeObject
      ∉ (remoteRead { body := [1, 2, 3], honorsRange := false } 0 2).1 := by
  have h := range_unsupported_fails_fast
    { body := [1, 2, 3], honorsRange := false } 0 2 rfl
  exact ⟨h.1, h.2.2⟩

/-! ## Chunked-index manifest load

Modelled from the spec: `load_index` parses the manifest into a
`ChunkSummary` list; a shard file listed in the manifest but missing on disk
is reported with `exists = false` and excluded from navigation, the rest of
the load succeeding. -/

/-- One manifest row: filename and declared item and byte counts. -/
structure ManifestEntry where
  filename : String
  chunkSizeDecl : Nat
  chunkBytesDecl : Nat
deriving Repr, DecidableEq

/-- Modelled from the spec: `load_index` maps every manifest row to a
`ChunkSummary` whose existence flag is the on-disk presence of the shard
file; it is total — missing files do not fail the load. -/
def load_index (indexPath rootDir : String) (entries : List ManifestEntry)
    (onDisk : String → Bool) : IndexSummary :=
  { indexPath := indexPath, rootDir := rootDir,
    dataFormat := [], compression := none,
    chunkSize := none, chunkBytes := none, configRaw := none,
    chunks := entries.map fun e =>
      { filename := e.filename,
        path := rootDir ++ "/" ++ e.filename,
        chunkSize := e.chunkSizeDecl,
        chunkBytes := e.chunkBytesDecl,
        dim := none,
        «exists» := onDisk e.filename } }

/-- Modelled from the spec: navigation only offers the shards that exist. -/
def navigableChunks (s : IndexSummary) : List ChunkSummary :=
  s.chunks.filter fun c => c.exists

/-- Claim C7: a shard listed in the manifest but missing on disk is reported
in the loaded shard list with `exists = false` and is excluded from
navigation, while the load still reports every manifest row (it never fails
as a whole) and every present shard stays navigable. -/
theorem missing_shard_reported_not_navigable (indexPath rootDir : String)
    (entries : List ManifestEntry) (onDisk : String → Bool)
    (e : ManifestEntry) (he : e ∈ entries) (hmiss : onDisk e.filename = false) :
    (∃ c ∈ (load_index indexPath rootDir entries onDisk).chunks,
        c.filename = e.filename ∧ c.exists = false ∧
        c ∉ navigableChunks (load_index indexPath rootDir entries onDisk)) ∧
    (load_index indexPath rootDir entries onDisk).chunks.length = entries.length ∧
    (∀ c ∈ (load_index indexPath rootDir entries onDisk).chunks,
        c.exists = true → c ∈ navigableChunks (load_index indexPath rootDir entries onDisk)) := by
  refine ⟨?_, by simp [load_index], ?_⟩
  · refine ⟨ChunkSummary.mk e.filename (rootDir ++ "/" ++ e.filename)
      e.chunkSizeDecl e.chunkBytesDecl none (onDisk e.filename), ?_, rfl, hmiss, ?_⟩
    · rw [load_index]
      exact List.mem_map_of_mem _ he
    · intro hnav
      rw [navigableChunks] at hnav
      have := List.of_mem_filter hnav
      rw [hmiss] at this
      cases this
  · intro c hc hex
    rw [navigableChunks]
    exact List.mem_filter.mpr ⟨hc, by simpa using hex⟩

/-- Witness for claim C7 on a two-row manifest with one shard missing. -/
theorem missing_shard_reported_not_navigable_witness :
    (⟨"chunk-0.bin", 10, 100⟩ : ManifestEntry)
        ∈ [(⟨"chunk-0.bin", 10, 100⟩ : ManifestEntry), ⟨"chunk-1.bin", 10, 100⟩] ∧
    (fun f => f = "chunk-1.bin" : String → Bool) "chunk-0.bin" = false ∧
    (load_index "index.json" "/data"
        [⟨"chunk-0.bin", 10, 100⟩, ⟨"chunk-1.bin", 10, 100⟩]
        (fun f => f = "chunk-1.bin")).chunks.length = 2 := by
  have h := missing_shard_reported_not_navigable "index.json" "/data"
    [⟨"chunk-0.bin", 10, 100⟩, ⟨"chunk-1.bin", 10, 100⟩]
    (fun f => f = "chunk-1.bin") ⟨"chunk-0.bin", 10, 100⟩
    (List.mem_cons_self _ _) (by decide)
  exact ⟨List.mem_cons_self _ _, by decide, h.2.1⟩

/-! ## Remote-catalog (Hugging Face) rows pagination

Modelled from the spec and the repository's Hugging Face documentation: the
backend fetches one page of rows at a time, clamping the requested length to
the service maximum of 100 before issuing the request, and represents capped
or sampled pages with the response's partial flag instead of an error.  The
source response type field named `partial` is a Lean keyword and is embedded
as `partialFlag`. -/

/-- The service's hard page cap (100 rows). -/
def HF_MAX_LENGTH : Nat := 100

/-- One config and its splits, from the source `HfConfigSummary` type. -/
structure HfConfigSummary where
  config : String
  splits : List String
deriving Repr, DecidableEq

/-- One schema feature, from the source `HfFeature` type. -/
structure HfFeature where
  name : String
  dtype : Option String
deriving Repr, DecidableEq

/-- The rows request the backend issues to the service. -/
structure HfRowsRequest where
  dataset : String
  config : String
  split : String
  offset : Nat
  length : Nat
deriving Repr, DecidableEq

/-- The dataset-viewer service: pages of rows (possibly sampled), a total
count, and whether a page is partial. -/
structure HfService where
  page : Nat → Nat → List String
  numRowsTotal : Nat
  isPartial : Nat → Nat → Bool

/-- The preview response, from the source `HfDatasetPreview` type. -/
structure HfDatasetPreview where
  dataset : String
  config : String
  split : String
  configs : List HfConfigSummary
  offset : Nat
  length : Nat
  numRowsTotal : Nat
  partialFlag : Bool
  features : List HfFeature
  rows : List String

/-- Modelled from the spec: `hf_dataset_preview` clamps the requested length
to the service maximum, issues the rows request, and returns a plain
response whose partial flag carries the capped/sampled state (no error). -/
def hf_dataset_preview (svc : HfService) (dataset config split : String)
    (offset length : Nat) : HfRowsRequest × HfDatasetPreview :=
  let len := min length HF_MAX_LENGTH
  let req : HfRowsRequest :=
    { dataset := dataset, config := config, split := split,
      offset := offset, length := len }
  (req,
    { dataset := dataset, config := config, split := split,
      configs := [], offset := offset, length := len,
      numRowsTotal := svc.numRowsTotal,
      partialFlag := svc.isPartial offset len,
      features := [], rows := svc.page offset len })

/-- Claim C8: the issued rows request's length is the requested length
clamped to the service maximum of 100, and a capped or sampled page is
carried by the response's partial flag (the response is always produced,
never an error). -/
theorem hf_preview_clamps_and_flags (svc : HfService)
    (dataset config split : String) (offset length : Nat) :
    (hf_dataset_preview svc dataset config split offset length).1.length
        = min length HF_MAX_LENGTH ∧
    (hf_dataset_preview svc dataset config split offset length).1.length ≤ 100 ∧
    (hf_dataset_preview svc dataset config split offset length).2.partialFlag
        = svc.isPartial offset (min length HF_MAX_LENGTH) ∧
    (hf_dataset_preview svc dataset config split offset length).2.length
        = (hf_dataset_preview svc dataset config split offset length).1.length := by
  refine ⟨rfl, ?_, rfl, rfl⟩
  show min length HF_MAX_LENGTH ≤ 100
  exact min_le_right _ _

/-! ## SPHERE/Shorten decode wrapper (C source)

Embedded from the C wrapper `litdata_sph_shorten_to_pcm16le`: it validates the
paths and header length, opens the input, seeks to `header_bytes`, opens the
output, configures PCM16 little-endian full-duration output, and runs the
vendored Shorten decoder (`shortenXtract`).  The vendored decoder itself is
not part of the reviewed sources, so it is a parameter: a function from the
output configuration and the input stream positioned at the payload to a
return code and the written PCM bytes. -/

/-- Sample type constant of the compatibility header (`#define PCM 2`). -/
def PCM : Nat := 2

/-- `INT_MAX` used for the full-duration `endout`. -/
def INT_MAX : Int := 2147483647

/-- The output settings the wrapper installs before decoding. -/
structure SphOutputConfig where
  startout : Int
  endout : Int
  typeout : Nat
  sizeout : Nat
  chanout : Nat
  outorder : String
deriving Repr, DecidableEq

/-- The wrapper's PCM16 little-endian configuration: full duration, PCM
samples of two bytes, little-endian output order `"01"`. -/
def pcm16leConfig : SphOutputConfig :=
  { startout := 0, endout := INT_MAX, typeout := PCM,
    sizeout := 2, chanout := 2, outorder := "01" }

/-- The file system as the wrapper sees it: readable input files and
creatable output files. -/
structure SphFs where
  readFile : String → Option Bytes
  canWrite : String → Bool

/-- Embedded from the C source `litdata_sph_shorten_to_pcm16le`: null or
negative arguments return 1 before anything is opened; a failed input open
or output open returns 1; otherwise the decoder runs on the input stream
positioned at byte offset `header_bytes` with PCM16LE output settings, and
its return code is the wrapper's.  The second component is the written
output (path and bytes), `none` when nothing was decoded. -/
def litdata_sph_shorten_to_pcm16le
    (decoder : SphOutputConfig → Bytes → Int × Bytes)
    (fs : SphFs) (sphPath : Option String) (headerBytes : Int)
    (pcmPath : Option String) : Int × Option (String × Bytes) :=
  match sphPath, pcmPath with
  | some sph, some pcm =>
      if headerBytes < 0 then (1, none)
      else
        match fs.readFile sph with
        | none => (1, none)
        | some bytes =>
            if fs.canWrite pcm then
              let result := decoder pcm16leConfig (bytes.drop headerBytes.toNat)
              (result.1, some (pcm, result.2))
            else (1, none)
  | _, _ => (1, none)

/-- Claim C9: with non-null paths, a non-negative header length, an openable
input and a creatable output, the wrapper runs the Shorten decoder on the
input bytes starting exactly at offset `header_bytes` under the PCM16
little-endian configuration and writes its output; with a null path or a
negative header length it returns the nonzero code 1 and decodes nothing,
whatever the decoder is. -/
theorem sph_shorten_wrapper_correct
    (decoder : SphOutputConfig → Bytes → Int × Bytes) (fs : SphFs)
    (sph pcm : String) (headerBytes : Int) (bytes : Bytes)
    (hread : fs.readFile sph = some bytes) (hwrite : fs.canWrite pcm = true)
    (hnn : 0 ≤ headerBytes) :
    litdata_sph_shorten_to_pcm16le decoder fs (some sph) headerBytes (some pcm)
        = ((decoder pcm16leConfig (bytes.drop headerBytes.toNat)).1,
            some (pcm, (decoder pcm16leConfig (bytes.drop headerBytes.toNat)).2)) ∧
    pcm16leConfig.sizeout = 2 ∧ pcm16leConfig.outorder = "01" ∧
    pcm16leConfig.typeout = PCM ∧ pcm16leConfig.startout = 0 ∧
    (∀ (fs' : SphFs) (hb : Int) (sp pp : Option String),
        sp = none ∨ pp = none ∨ hb < 0 →
        litdata_sph_shorten_to_pcm16le decoder fs' sp hb pp = (1, none)) := by
  refine ⟨?_, rfl, rfl, rfl, rfl, ?_⟩
  · rw [litdata_sph_shorten_to_pcm16le, if_neg (not_lt.mpr hnn), hread]
    dsimp only
    rw [if_pos hwrite]
  · rintro fs' hb sp pp (rfl | rfl | hneg)
    · rfl
    · cases sp <;> rfl
    · cases sp with
      | none => rfl
      | some sp' =>
          cases pp with
          | none => rfl
          | some pp' =>
              rw [litdata_sph_shorten_to_pcm16le, if_pos hneg]

/-- Witness for claim C9: a two-byte header skipped before an identity
decoder, and the rejection of a negative header length. -/
theorem sph_shorten_wrapper_correct_witness :
    litdata_sph_shorten_to_pcm16le (fun _ bs => (0, bs))
        { readFile := fun _ => some [7, 7, 1, 2, 3], canWrite := fun _ => true }
        (some "a.sph") 2 (some "a.pcm")
      = (0, some ("a.pcm", [1, 2, 3])) ∧
    litdata_sph_shorten_to_pcm16le (fun _ bs => (0, bs))
        { readFile := fun _ => some [7, 7, 1, 2, 3], canWrite := fun _ => true }
        (some "a.sph") (-1) (some "a.pcm")
      = (1, none) := by
  have h := sph_shorten_wrapper_correct (fun _ bs => (0, bs))
    { readFile := fun _ => some [7, 7, 1, 2, 3], canWrite := fun _ => true }
    "a.sph" "a.pcm" 2 [7, 7, 1, 2, 3] rfl rfl (by decide)
  exact ⟨h.1, h.2.2.2.2.2 _ (-1) (some "a.sph") (some "a.pcm")
    (Or.inr (Or.inr (by decide)))⟩

end DatasetInspector
